import Mathlib

/-!
# Verification of the CRC-32 / CRC-64 checksum-combination library

This file embeds the core of the library: the GF(2) modular arithmetic
(`multModP`, `x2NModP`), the power-table construction (`makePoly`), the
`Combine` operation, and the well-known-polynomial accessors, for both the
32-bit and the 64-bit width.  The two Go packages are structurally identical
and differ only in the integer width, so the embedding is parameterised by
the width `W` and instantiated at `W = 32` and `W = 64`.

Machine integers (`uint32`/`uint64`) are modelled as `Nat` values below
`2 ^ W`; the signed 64-bit length argument of `Combine` is modelled as `Int`
(with `Int.ediv`/`Int.emod`, which agree with the arithmetic right shift and
the low bit of a two's-complement `int64`).  A `panic` is modelled as `none`
(for `multModP`) resp. `LoopRes.panicked` (for the loops that call it), and
a loop that has not yet terminated when its step budget runs out is
`LoopRes.spin` — a budget of 64 steps is shown to be enough for every
non-negative `int64` argument.
-/

namespace Crc

/-- One shift/reduce step of the Go loops: `xor := b&1 != 0; if b >>= 1; xor { b ^= p }`.
Semantically this multiplies the reflected polynomial `b` by `x` modulo the
generator `p(x)`. -/
def xtimes (p b : Nat) : Nat :=
  if b &&& 1 = 0 then b >>> 1 else (b >>> 1) ^^^ p

/-- Iterated `xtimes`: multiplication by `x ^ n` modulo the generator
(semantic helper used in specifications and proofs). -/
def powx (p : Nat) : Nat → Nat → Nat
  | 0, b => b
  | n + 1, b => powx p n (xtimes p b)

/-- The loop of `Poly.multModP`, embedded from the source.  The counter `k`
counts the remaining iterations, so the current mask is `m = 1 <<< k` at the
entry of each round (`m` runs from `1 <<< (W-1)` down to `1`).  Falling out
of the loop is the `panic("crc32: invalid state")` path, modelled as `none`. -/
def multModPAux (p a : Nat) : Nat → Nat → Nat → Option Nat
  | 0, _, _ => none
  | k + 1, b, v =>
    if a &&& (1 <<< k) ≠ 0 then
      if a &&& ((1 <<< k) - 1) = 0 then some (v ^^^ b)
      else multModPAux p a k (xtimes p b) (v ^^^ b)
    else multModPAux p a k (xtimes p b) v

/-- `Poly.multModP`: `(a(x) * b(x)) mod p(x)` for reflected polynomials.
For speed the source requires `a ≠ 0`; if `a = 0` the loop falls through and
panics (`none`). -/
def multModP (W p a b : Nat) : Option Nat :=
  multModPAux p a W b 0

/-- The table-building loop of `makePoly`: starting from the current value
`v`, perform `c` squarings, recording each result.  A panic inside
`multModP` aborts construction. -/
def x2nTblAux (W p : Nat) : Nat → Nat → Option (List Nat)
  | 0, _ => some []
  | c + 1, v =>
    match multModP W p v v with
    | none => none
    | some v' => (x2nTblAux W p c v').map fun rest => v' :: rest

/-- The `x2nTbl` array built by `makePoly`: entry 0 is the seed
`1 <<< (W-2)` itself, and each later entry is the modular square of the
previous one. -/
def x2nTbl (W p : Nat) : Option (List Nat) :=
  (x2nTblAux W p (W - 1) (1 <<< (W - 2))).map fun rest => (1 <<< (W - 2)) :: rest

/-- `Poly`: a generator polynomial value together with its power table.
(The byte-wise lookup table of the Go struct is an external, opaque
collaborator derived from `poly` alone, so it is not carried here.) -/
structure Poly where
  poly : Nat
  x2nTbl : List Nat
  deriving DecidableEq

/-- `makePoly`: build the power table; panics (is `none`) if a squaring
inside the loop panics. -/
def makePoly (W p : Nat) : Option Poly :=
  (x2nTbl W p).map fun t => { poly := p, x2nTbl := t }

/-- Result of a loop that can terminate normally, panic, or still be
running when the step budget is exhausted. -/
inductive LoopRes
  | ok (v : Nat)
  | panicked
  | spin
  deriving DecidableEq

/-- The loop of `Poly.x2NModP`, embedded from the source, with an explicit
step budget `F`.  `n` is the signed 64-bit exponent: `n &&& 1` is
`Int.emod n 2` and the arithmetic shift `n >>= 1` is `Int.ediv n 2`. -/
def x2NAux (W p : Nat) (tbl : List Nat) : Nat → Int → Nat → Nat → LoopRes
  | 0, n, _, v => if n = 0 then .ok v else .spin
  | F + 1, n, k, v =>
    if n = 0 then .ok v
    else
      match (if n % 2 ≠ 0 then multModP W p (tbl.getD (k &&& (W - 1)) 0) v else some v) with
      | none => .panicked
      | some v' => x2NAux W p tbl F (n / 2) (k + 1) v'

/-- `Poly.x2NModP`: `x ^ (n * 2^k) mod p(x)`, starting from the identity
`1 <<< (W-1)`.  The budget 64 covers every non-negative `int64` exponent. -/
def x2NModP (W : Nat) (P : Poly) (n : Int) (k : Nat) : LoopRes :=
  x2NAux W P.poly P.x2nTbl 64 n k (1 <<< (W - 1))

/-- `Poly.Combine`, embedded from the source:
zero previous sum returns `next`; non-positive length returns `prev`;
otherwise `multModP(prev, x2NModP(n, 3)) ^ next`. -/
def Combine (W : Nat) (P : Poly) (prev next : Nat) (n : Int) : LoopRes :=
  if prev = 0 then .ok next
  else if n ≤ 0 then .ok prev
  else
    match x2NModP W P n 3 with
    | .ok w =>
      match multModP W P.poly prev w with
      | some r => .ok (r ^^^ next)
      | none => .panicked
    | r => r

/-- Modelled from the spec: the external byte-table checksum primitive
`Update(sum, table, data) -> sum` (Go's `hash/crc32` / `hash/crc64`
`Update`), given by its canonical bit-serial semantics for a reflected
generator: complement the sum, then for each byte XOR it in and run eight
shift/reduce steps, and complement again.  The per-bit step is exactly
`xtimes`. -/
def updateRaw (p : Nat) (s : Nat) (data : List Nat) : Nat :=
  data.foldl (fun s c => powx p 8 (s ^^^ c)) s

/-- `Poly.Update` (via the external primitive): `~raw(~sum, data)` where
`~` is complement against the all-ones mask. -/
def Update (W p : Nat) (sum : Nat) (data : List Nat) : Nat :=
  ((1 <<< W) - 1) ^^^ updateRaw p (((1 <<< W) - 1) ^^^ sum) data

/-- `Poly.Checksum`: `Update(0, data)`. -/
def Checksum (W p : Nat) (data : List Nat) : Nat :=
  Update W p 0 data

/-- Proof-side totalisation of the `multModP` loop: the same iteration
without the early exit and without the panic.  `mulT` agrees with
`multModPAux` whenever the early exit fires (see `multModPAux_eq_mulT`). -/
def mulT (p a : Nat) : Nat → Nat → Nat → Nat
  | 0, _, v => v
  | k + 1, b, v => mulT p a k (xtimes p b) (if a &&& (1 <<< k) ≠ 0 then v ^^^ b else v)

/-- The intended contents of the power table: entry `i` holds
`x ^ (2^i) mod p(x)`, i.e. `powx p (2^i)` applied to the identity word
`1 <<< (W-1)`. -/
def tblSpec (W p : Nat) : List Nat :=
  (List.range W).map fun i => powx p (2 ^ i) (2 ^ (W - 1))

/-- The reflected word `w` read as a polynomial over GF(2): bit `i` of `w`
is the coefficient of `x ^ (W-1-i)`. -/
noncomputable def toPoly (W w : Nat) : Polynomial (ZMod 2) :=
  ∑ i ∈ Finset.range W, if w.testBit i then Polynomial.X ^ (W - 1 - i) else 0

/-- The generator polynomial `p(x) = x^W + (reflected word p)`. -/
noncomputable def genPoly (W p : Nat) : Polynomial (ZMod 2) :=
  Polynomial.X ^ W + toPoly W p

end Crc

namespace crc32

/-- `hash/crc32.IEEE`. -/
def IEEEConst : Nat := 0xEDB88320

/-- `hash/crc32.Castagnoli`. -/
def CastagnoliConst : Nat := 0x82F63B78

/-- `hash/crc32.Koopman`. -/
def KoopmanConst : Nat := 0xEB31D82E

/-- The `IEEE()` accessor (the lazily-constructed singleton, which always
builds `makePoly(crc32.IEEE)`). -/
def IEEE : Option Crc.Poly := Crc.makePoly 32 IEEEConst

/-- The `Castagnoli()` accessor. -/
def Castagnoli : Option Crc.Poly := Crc.makePoly 32 CastagnoliConst

/-- The `Koopman()` accessor. -/
def Koopman : Option Crc.Poly := Crc.makePoly 32 KoopmanConst

/-- `crc32.MakePoly`, embedded from the source `switch`. -/
def MakePoly (poly : Nat) : Option Crc.Poly :=
  if poly = IEEEConst then IEEE
  else if poly = CastagnoliConst then Castagnoli
  else if poly = KoopmanConst then Koopman
  else Crc.makePoly 32 poly

end crc32

namespace crc64

/-- `hash/crc64.ISO`. -/
def ISOConst : Nat := 0xD800000000000000

/-- `hash/crc64.ECMA`. -/
def ECMAConst : Nat := 0xC96C5795D7870F42

/-- The `ISO()` accessor. -/
def ISO : Option Crc.Poly := Crc.makePoly 64 ISOConst

/-- The `ECMA()` accessor. -/
def ECMA : Option Crc.Poly := Crc.makePoly 64 ECMAConst

/-- `crc64.MakePoly`, embedded from the source `switch`. -/
def MakePoly (poly : Nat) : Option Crc.Poly :=
  if poly = ISOConst then ISO
  else if poly = ECMAConst then ECMA
  else Crc.makePoly 64 poly

end crc64

/-!
## Basic XOR and `xtimes` lemmas
-/

namespace Crc

theorem xor_left_comm (x y z : Nat) : x ^^^ (y ^^^ z) = y ^^^ (x ^^^ z) := by
  rw [← Nat.xor_assoc, Nat.xor_comm x y, Nat.xor_assoc]

theorem xor_cancel_left (x y : Nat) : x ^^^ (x ^^^ y) = y := by
  rw [← Nat.xor_assoc, Nat.xor_self, Nat.zero_xor]

theorem xor_cancel_pair (x y z : Nat) : (x ^^^ z) ^^^ (y ^^^ z) = x ^^^ y := by
  rw [Nat.xor_comm y z, ← Nat.xor_assoc, Nat.xor_assoc x z z, Nat.xor_self, Nat.xor_zero]

theorem shiftRight_one_xor (a b : Nat) : (a ^^^ b) >>> 1 = a >>> 1 ^^^ b >>> 1 := by
  apply Nat.eq_of_testBit_eq
  intro i
  simp [Nat.testBit_xor]

theorem xtimes_xor (p a b : Nat) : xtimes p (a ^^^ b) = xtimes p a ^^^ xtimes p b := by
  simp only [xtimes, Nat.and_one_is_mod, Nat.xor_mod_two_eq]
  rcases Nat.mod_two_eq_zero_or_one a with h1 | h1 <;>
    rcases Nat.mod_two_eq_zero_or_one b with h2 | h2
  · have hab : (a + b) % 2 = 0 := by omega
    simp [h1, h2, hab, shiftRight_one_xor]
  · have hab : (a + b) % 2 = 1 := by omega
    simp [h1, h2, hab, shiftRight_one_xor, Nat.xor_assoc]
  · have hab : (a + b) % 2 = 1 := by omega
    simp [h1, h2, hab, shiftRight_one_xor]
    rw [Nat.xor_assoc, Nat.xor_comm (b >>> 1) p, ← Nat.xor_assoc]
  · have hab : (a + b) % 2 = 0 := by omega
    simp [h1, h2, hab, shiftRight_one_xor]
    rw [xor_cancel_pair]

theorem xtimes_zero (p : Nat) : xtimes p 0 = 0 := by
  simp [xtimes]

theorem xtimes_lt {W p b : Nat} (hp : p < 2 ^ W) (hb : b < 2 ^ W) :
    xtimes p b < 2 ^ W := by
  have hs : b >>> 1 < 2 ^ W := by
    rw [Nat.shiftRight_one]
    exact Nat.lt_of_le_of_lt (Nat.div_le_self b 2) hb
  unfold xtimes
  split
  · exact hs
  · exact Nat.xor_lt_two_pow hs hp

theorem powx_zero_val (p : Nat) : ∀ n, powx p n 0 = 0
  | 0 => rfl
  | n + 1 => by rw [powx, xtimes_zero]; exact powx_zero_val p n

theorem powx_xor (p : Nat) : ∀ n a b, powx p n (a ^^^ b) = powx p n a ^^^ powx p n b
  | 0, _, _ => rfl
  | n + 1, a, b => by
    rw [powx, powx, powx, xtimes_xor]
    exact powx_xor p n _ _

theorem powx_add (p : Nat) : ∀ m n b, powx p (m + n) b = powx p m (powx p n b)
  | _, 0, _ => rfl
  | m, n + 1, b => by
    rw [Nat.add_succ, powx, powx]
    exact powx_add p m n (xtimes p b)

theorem powx_lt {W p b : Nat} (hp : p < 2 ^ W) (hb : b < 2 ^ W) :
    ∀ n, powx p n b < 2 ^ W := by
  intro n
  induction n generalizing b with
  | zero => exact hb
  | succ n ih => exact ih (xtimes_lt hp hb)

theorem xtimes_two_pow {p : Nat} (c : Nat) : xtimes p (2 ^ (c + 1)) = 2 ^ c := by
  have h1 : 2 ^ (c + 1) &&& 1 = 0 := by
    rw [Nat.and_one_is_mod, Nat.pow_succ, Nat.mul_mod_left]
  have h2 : 2 ^ (c + 1) >>> 1 = 2 ^ c := by
    rw [Nat.shiftRight_one, Nat.pow_succ, Nat.mul_div_cancel _ (by norm_num)]
  rw [xtimes, if_pos h1, h2]

theorem powx_two_pow (p : Nat) : ∀ n c, n ≤ c → powx p n (2 ^ c) = 2 ^ (c - n)
  | 0, c, _ => by rw [powx, Nat.sub_zero]
  | n + 1, c, h => by
    obtain ⟨c', rfl⟩ : ∃ c', c = c' + 1 := ⟨c - 1, by omega⟩
    rw [powx, xtimes_two_pow, powx_two_pow p n c' (by omega)]
    congr 1
    omega

/-!
## Single-bit and low-bits facts
-/

theorem and_two_pow_eq (a k : Nat) : a &&& 2 ^ k = if a.testBit k then 2 ^ k else 0 := by
  apply Nat.eq_of_testBit_eq
  intro i
  by_cases h : k = i
  · subst h
    cases hb : a.testBit k <;> simp [Nat.testBit_and, hb, Nat.testBit_two_pow_self]
  · cases hb : a.testBit k <;>
      simp [Nat.testBit_and, Nat.testBit_two_pow_of_ne h, Nat.zero_testBit, hb]

theorem and_two_pow_ne_zero (a k : Nat) : a &&& 2 ^ k ≠ 0 ↔ a.testBit k = true := by
  rw [and_two_pow_eq]
  cases hb : a.testBit k <;> simp [hb, (Nat.two_pow_pos k).ne']

theorem testBit_div_mod (a k : Nat) : a.testBit k = true ↔ a / 2 ^ k % 2 = 1 := by
  rw [Nat.testBit_to_div_mod]
  simp

theorem mod_two_pow_succ_eq (a k : Nat) :
    a % 2 ^ (k + 1) = a % 2 ^ k + 2 ^ k * (a / 2 ^ k % 2) := by
  rw [Nat.pow_succ]
  exact Nat.mod_mul

/-- If bit `k` of `a` is clear, the low `k+1` bits of `a` are its low `k` bits. -/
theorem mod_two_pow_succ_of_bit_clear {a k : Nat} (h : a &&& 2 ^ k = 0) :
    a % 2 ^ (k + 1) = a % 2 ^ k := by
  have hb : a.testBit k = false := by
    cases hb : a.testBit k
    · rfl
    · exact absurd h ((and_two_pow_ne_zero a k).mpr hb)
  have hd : a / 2 ^ k % 2 = 0 := by
    rcases Nat.mod_two_eq_zero_or_one (a / 2 ^ k) with h2 | h2
    · exact h2
    · rw [Nat.testBit_to_div_mod, h2] at hb
      simp at hb
  rw [mod_two_pow_succ_eq, hd, Nat.mul_zero, Nat.add_zero]

/-!
## The `multModP` loop: totalisation and characterisation
-/

theorem mulT_acc (p a : Nat) : ∀ (k b v : Nat), mulT p a k b v = v ^^^ mulT p a k b 0
  | 0, b, v => by simp [mulT]
  | k + 1, b, v => by
    rw [mulT, mulT,
      mulT_acc p a k (xtimes p b) (if a &&& (1 <<< k) ≠ 0 then v ^^^ b else v),
      mulT_acc p a k (xtimes p b) (if a &&& (1 <<< k) ≠ 0 then 0 ^^^ b else 0)]
    by_cases hc : a &&& (1 <<< k) ≠ 0 <;> simp [hc, Nat.xor_assoc]

theorem mulT_low_zero (p a : Nat) :
    ∀ (k b v : Nat), a &&& (2 ^ k - 1) = 0 → mulT p a k b v = v
  | 0, _, _, _ => rfl
  | k + 1, b, v, h => by
    have hmod : a % 2 ^ (k + 1) = 0 := by
      rw [← Nat.and_pow_two_sub_one_eq_mod]
      exact h
    have hk : a % 2 ^ k = 0 ∧ 2 ^ k * (a / 2 ^ k % 2) = 0 := by
      have := mod_two_pow_succ_eq a k
      omega
    have hbit : a &&& 2 ^ k = 0 := by
      rw [and_two_pow_eq]
      have : ¬ a.testBit k = true := by
        rw [testBit_div_mod]
        have h2 := hk.2
        intro hx
        rw [hx, Nat.mul_one] at h2
        exact absurd h2 (Nat.two_pow_pos k).ne'
      simp [this]
    rw [mulT, Nat.one_shiftLeft, if_neg (by simp [hbit])]
    exact mulT_low_zero p a k (xtimes p b) v
      (by rw [Nat.and_pow_two_sub_one_eq_mod] at h ⊢; rw [← mod_two_pow_succ_of_bit_clear hbit]; exact h)

theorem multModPAux_eq_mulT (p a : Nat) :
    ∀ (k b v : Nat), a &&& (2 ^ k - 1) ≠ 0 →
      multModPAux p a k b v = some (mulT p a k b v)
  | 0, _, _, h => absurd (by simp) h
  | k + 1, b, v, h => by
    rw [multModPAux, mulT, Nat.one_shiftLeft]
    by_cases hbit : a &&& 2 ^ k = 0
    · rw [if_neg (by simp [hbit]), if_neg (by simp [hbit])]
      refine multModPAux_eq_mulT p a k (xtimes p b) v ?_
      rw [Nat.and_pow_two_sub_one_eq_mod] at h ⊢
      rw [← mod_two_pow_succ_of_bit_clear hbit]
      exact h
    · rw [if_pos hbit, if_pos hbit]
      by_cases hlow : a &&& (2 ^ k - 1) = 0
      · rw [if_pos hlow, mulT_low_zero p a k (xtimes p b) (v ^^^ b) hlow]
      · rw [if_neg hlow]
        exact multModPAux_eq_mulT p a k (xtimes p b) (v ^^^ b) hlow

theorem multModP_eq_mulT {W p a b : Nat} (ha : a ≠ 0) (haW : a < 2 ^ W) :
    multModP W p a b = some (mulT p a W b 0) := by
  unfold multModP
  apply multModPAux_eq_mulT
  rw [Nat.and_pow_two_sub_one_eq_mod, Nat.mod_eq_of_lt haW]
  exact ha

theorem xor_div_two (a b : Nat) : (a ^^^ b) / 2 = a / 2 ^^^ b / 2 := by
  have := shiftRight_one_xor a b
  simpa [Nat.shiftRight_one] using this

/-- XOR with a power of two larger than the other operand is addition. -/
theorem two_pow_xor_eq_add : ∀ (m x : Nat), x < 2 ^ m → 2 ^ m ^^^ x = 2 ^ m + x
  | 0, x, h => by
    have hx : x = 0 := by omega
    subst hx
    simp
  | m + 1, x, h => by
    have e : 2 ^ (m + 1) = 2 * 2 ^ m := by ring
    have hy : x / 2 < 2 ^ m := by omega
    have hdiv : (2 ^ (m + 1) ^^^ x) / 2 = 2 ^ m ^^^ x / 2 := by
      rw [xor_div_two]
      congr 1
      omega
    have hmod : (2 ^ (m + 1) ^^^ x) % 2 = x % 2 := by
      rw [Nat.xor_mod_two_eq]
      omega
    rw [two_pow_xor_eq_add m (x / 2) hy] at hdiv
    have hsplit := Nat.div_add_mod (2 ^ (m + 1) ^^^ x) 2
    omega

/-- The product loop commutes with a final multiplication by `x`. -/
theorem mulT_xtimes (p a : Nat) :
    ∀ (k b : Nat), mulT p a k (xtimes p b) 0 = xtimes p (mulT p a k b 0)
  | 0, _ => (xtimes_zero p).symm
  | k + 1, b => by
    rw [mulT, mulT, mulT_acc p a k (xtimes p (xtimes p b)),
      mulT_acc p a k (xtimes p b), xtimes_xor,
      mulT_xtimes p a k (xtimes p b)]
    by_cases hc : a &&& (1 <<< k) ≠ 0 <;> simp [hc, xtimes_zero]

/-- The product loop commutes with a final multiplication by `x ^ m`. -/
theorem mulT_powx (p a : Nat) :
    ∀ (m k b : Nat), mulT p a k (powx p m b) 0 = powx p m (mulT p a k b 0)
  | 0, _, _ => rfl
  | m + 1, k, b => by
    rw [powx, powx, mulT_powx p a m k (xtimes p b), mulT_xtimes p a k b]

/-- Closed form of the product loop on an unreduced power of two: it
reassembles the low `k` bits of `a`, shifted so that the identity word
`2 ^ (W-1)` at `k = W` returns `a` itself. -/
theorem mulT_two_pow (p a : Nat) :
    ∀ (k m : Nat), k ≤ m + 1 → mulT p a k (2 ^ m) 0 = a % 2 ^ k * 2 ^ (m + 1 - k)
  | 0, m, _ => by simp [mulT, Nat.mod_one]
  | k + 1, m, h => by
    rw [mulT, mulT_acc, Nat.one_shiftLeft]
    rcases Nat.eq_zero_or_pos k with rfl | hk
    · rcases Nat.mod_two_eq_zero_or_one a with h2 | h2 <;>
        simp [mulT, pow_zero, pow_one, Nat.and_one_is_mod, h2]
    · obtain ⟨m', rfl⟩ : ∃ m', m = m' + 1 := ⟨m - 1, by omega⟩
      have e : m' + 1 + 1 - (k + 1) = m' + 1 - k := by omega
      rw [e, xtimes_two_pow, mulT_two_pow p a k m' (by omega)]
      have epow : 2 ^ k * 2 ^ (m' + 1 - k) = 2 ^ (m' + 1) := by
        rw [← Nat.pow_add]
        congr 1
        omega
      have hlt : a % 2 ^ k * 2 ^ (m' + 1 - k) < 2 ^ (m' + 1) := by
        rw [← epow]
        exact (Nat.mul_lt_mul_right (Nat.two_pow_pos _)).mpr
          (Nat.mod_lt _ (Nat.two_pow_pos _))
      have hmodsucc := mod_two_pow_succ_eq a k
      have he1 : m' + 1 - k + k = m' + 1 := by omega
      rcases Nat.mod_two_eq_zero_or_one (a / 2 ^ k) with hb | hb
      · have hcond : a &&& 2 ^ k = 0 := by
          rw [and_two_pow_eq]
          have hfalse : ¬ a.testBit k = true := by
            rw [testBit_div_mod, hb]
            omega
          simp [hfalse]
        rw [if_neg (by simp [hcond]), Nat.zero_xor, hmodsucc, hb, Nat.mul_zero]
        simp
      · have hcond : a &&& 2 ^ k ≠ 0 := by
          rw [and_two_pow_ne_zero, testBit_div_mod]
          exact hb
        rw [if_pos hcond, Nat.zero_xor, two_pow_xor_eq_add _ _ hlt, hmodsucc, hb,
          Nat.mul_one, Nat.add_mul, epow]
        omega

/-- The identity word `2 ^ (W-1)` is a right identity for the product
loop over `W`-bit operands. -/
theorem mulT_identity {W a : Nat} (p : Nat) (hW : 1 ≤ W) (ha : a < 2 ^ W) :
    mulT p a W (2 ^ (W - 1)) 0 = a := by
  rw [mulT_two_pow p a W (W - 1) (by omega), Nat.mod_eq_of_lt ha]
  have e : W - 1 + 1 - W = 0 := by omega
  rw [e, pow_zero, Nat.mul_one]

/-- `multModP` applied to a power of `x` (times the identity) multiplies
its first argument by that power of `x`. -/
theorem multModP_powx {W p a : Nat} (m : Nat) (ha : a ≠ 0) (haW : a < 2 ^ W)
    (hW : 1 ≤ W) :
    multModP W p a (powx p m (2 ^ (W - 1))) = some (powx p m a) := by
  rw [multModP_eq_mulT ha haW, mulT_powx, mulT_identity p hW haW]

/-!
## GF(2) polynomial semantics of the word operations

Words are mapped to polynomials over `ZMod 2` (bit `i` ↦ coefficient of
`x^(W-1-i)`), `xtimes` becomes multiplication by `X` modulo the generator
`genPoly W p = X^W + toPoly W p`, and the key consequence is that no power
of `x` vanishes modulo a generator with a non-zero reflected word.
-/

section GFTwo

open Polynomial

theorem toPoly_coeff_lt {W w j : Nat} (hj : j < W) :
    (toPoly W w).coeff j = if w.testBit (W - 1 - j) then 1 else 0 := by
  unfold toPoly
  rw [finset_sum_coeff, Finset.sum_eq_single (W - 1 - j)]
  · cases hb : w.testBit (W - 1 - j) with
    | false => simp [hb]
    | true =>
      have e : W - 1 - (W - 1 - j) = j := by omega
      simp [hb, e, coeff_X_pow]
  · intro b hb hne
    have hbW : b < W := Finset.mem_range.mp hb
    have hne2 : j ≠ W - 1 - b := by omega
    cases hbit : w.testBit b with
    | false => simp [hbit]
    | true => simp [hbit, coeff_X_pow, hne2]
  · intro hni
    exact absurd (Finset.mem_range.mpr (by omega : W - 1 - j < W)) hni

theorem toPoly_coeff_ge {W w j : Nat} (hj : W ≤ j) : (toPoly W w).coeff j = 0 := by
  unfold toPoly
  rw [finset_sum_coeff]
  apply Finset.sum_eq_zero
  intro b hb
  have hbW : b < W := Finset.mem_range.mp hb
  have hne : j ≠ W - 1 - b := by omega
  cases hbit : w.testBit b with
  | false => simp [hbit]
  | true => simp [hbit, coeff_X_pow, hne]

theorem toPoly_zero_eq (W : Nat) : toPoly W 0 = 0 := by
  unfold toPoly
  apply Finset.sum_eq_zero
  intro b _
  simp [Nat.zero_testBit]

theorem toPoly_eq_zero {W w : Nat} (hw : w < 2 ^ W) (h : toPoly W w = 0) : w = 0 := by
  by_contra hne
  obtain ⟨i, hi⟩ : ∃ i, w.testBit i = true := by
    by_contra hall
    push_neg at hall
    apply hne
    apply Nat.eq_of_testBit_eq
    intro i
    rw [Nat.zero_testBit]
    exact Bool.not_eq_true _ ▸ hall i
  have hiW : i < W := by
    by_contra hge
    push_neg at hge
    have hf : w.testBit i = false :=
      Nat.testBit_lt_two_pow (lt_of_lt_of_le hw (Nat.pow_le_pow_right (by omega) hge))
    rw [hi] at hf
    exact Bool.noConfusion hf
  have hj : W - 1 - i < W := by omega
  have hc := toPoly_coeff_lt (w := w) hj
  have e : W - 1 - (W - 1 - i) = i := by omega
  rw [e, hi, if_pos rfl, h, coeff_zero] at hc
  exact zero_ne_one hc

theorem toPoly_xor (W a b : Nat) : toPoly W (a ^^^ b) = toPoly W a + toPoly W b := by
  apply Polynomial.ext
  intro j
  rcases lt_or_le j W with hj | hj
  · rw [coeff_add, toPoly_coeff_lt hj, toPoly_coeff_lt hj, toPoly_coeff_lt hj,
      Nat.testBit_xor]
    cases h1 : a.testBit (W - 1 - j) <;> cases h2 : b.testBit (W - 1 - j) <;>
      simp [h1, h2] <;> decide
  · rw [coeff_add, toPoly_coeff_ge hj, toPoly_coeff_ge hj, toPoly_coeff_ge hj]
    simp

theorem toPoly_mul_X {W b : Nat} (hW : 1 ≤ W) (hb : b < 2 ^ W) :
    toPoly W b * Polynomial.X
      = toPoly W (b >>> 1) + (if b.testBit 0 then Polynomial.X ^ W else 0) := by
  apply Polynomial.ext
  intro j
  rcases j with _ | jj
  · rw [coeff_mul_X_zero, coeff_add]
    have h0 : (toPoly W (b >>> 1)).coeff 0 = 0 := by
      rw [toPoly_coeff_lt (by omega : 0 < W)]
      have hf : b.testBit (1 + (W - 1)) = false := by
        apply Nat.testBit_lt_two_pow
        have e : 1 + (W - 1) = W := by omega
        rw [e]
        exact hb
      simp [hf]
    rw [h0]
    cases hbit : b.testBit 0 with
    | false => simp
    | true =>
      rw [if_pos rfl, coeff_X_pow, if_neg (by omega : ¬ (0 = W))]
      simp
  · rw [coeff_mul_X, coeff_add]
    rcases lt_or_le (jj + 1) W with hj | hj
    · rw [toPoly_coeff_lt (by omega : jj < W), toPoly_coeff_lt hj]
      have e : (b >>> 1).testBit (W - 1 - (jj + 1)) = b.testBit (W - 1 - jj) := by
        rw [Nat.testBit_shiftRight]
        congr 1
        omega
      rw [e]
      cases hbit : b.testBit 0 with
      | false => simp
      | true =>
        rw [if_pos rfl, coeff_X_pow, if_neg (by omega : ¬ (jj + 1 = W))]
        simp
    · rcases eq_or_lt_of_le hj with heq | hlt
      · rw [toPoly_coeff_lt (by omega : jj < W), toPoly_coeff_ge (by omega : W ≤ jj + 1)]
        have e : W - 1 - jj = 0 := by omega
        rw [e]
        cases hbit : b.testBit 0 with
        | false => simp
        | true =>
          rw [if_pos rfl, if_pos rfl, coeff_X_pow, if_pos heq.symm]
          simp
      · rw [toPoly_coeff_ge (by omega : W ≤ jj), toPoly_coeff_ge (by omega : W ≤ jj + 1)]
        cases hbit : b.testBit 0 with
        | false => simp
        | true =>
          rw [if_pos rfl, coeff_X_pow, if_neg (by omega : ¬ (jj + 1 = W))]
          simp

theorem toPoly_degree (W w : Nat) : (toPoly W w).degree < (W : Nat) := by
  rw [Polynomial.degree_lt_iff_coeff_zero]
  intro m hm
  exact toPoly_coeff_ge (by exact_mod_cast hm)

theorem genPoly_monic (W p : Nat) : (genPoly W p).Monic :=
  Polynomial.monic_X_pow_add (toPoly_degree W p)

theorem genPoly_degree (W p : Nat) : (genPoly W p).degree = W := by
  unfold genPoly
  rw [Polynomial.degree_add_eq_left_of_degree_lt, Polynomial.degree_X_pow]
  rw [Polynomial.degree_X_pow]
  exact toPoly_degree W p

theorem toPoly_identity {W : Nat} (hW : 1 ≤ W) : toPoly W (2 ^ (W - 1)) = 1 := by
  unfold toPoly
  rw [Finset.sum_eq_single (W - 1)]
  · simp [Nat.testBit_two_pow_self]
  · intro b hb hne
    rw [Nat.testBit_two_pow_of_ne (fun h => hne h.symm)]
    simp
  · intro h
    exact absurd (Finset.mem_range.mpr (by omega)) h

theorem quot_xtimes {W p : Nat} (hW : 1 ≤ W) {b : Nat} (hb : b < 2 ^ W) :
    Ideal.Quotient.mk (Ideal.span {genPoly W p}) (toPoly W (xtimes p b))
      = Ideal.Quotient.mk (Ideal.span {genPoly W p}) (toPoly W b * Polynomial.X) := by
  have key := toPoly_mul_X hW hb
  by_cases hbit : b.testBit 0 = true
  · have hodd : ¬ b &&& 1 = 0 := by
      rw [Nat.and_one_is_mod]
      rw [Nat.testBit_zero] at hbit
      simp at hbit
      omega
    have hx : xtimes p b = (b >>> 1) ^^^ p := by
      unfold xtimes
      rw [if_neg hodd]
    rw [hx, toPoly_xor, Ideal.Quotient.eq, Ideal.mem_span_singleton, key, if_pos hbit]
    have hdiff : toPoly W (b >>> 1) + toPoly W p
          - (toPoly W (b >>> 1) + Polynomial.X ^ W)
        = toPoly W p - Polynomial.X ^ W := by
      ring
    rw [hdiff, CharTwo.sub_eq_add, add_comm]
    exact dvd_refl _
  · have heven : b &&& 1 = 0 := by
      rw [Nat.and_one_is_mod]
      rw [Nat.testBit_zero] at hbit
      simp at hbit
      omega
    have hx : xtimes p b = b >>> 1 := by
      unfold xtimes
      rw [if_pos heven]
    rw [hx, key, if_neg hbit, add_zero]

theorem quot_powx {W p : Nat} (hW : 1 ≤ W) (hpW : p < 2 ^ W) :
    ∀ (m : Nat) {b : Nat}, b < 2 ^ W →
      Ideal.Quotient.mk (Ideal.span {genPoly W p}) (toPoly W (powx p m b))
        = Ideal.Quotient.mk (Ideal.span {genPoly W p}) (toPoly W b)
            * Ideal.Quotient.mk (Ideal.span {genPoly W p}) Polynomial.X ^ m
  | 0, b, _ => by rw [powx, pow_zero, mul_one]
  | m + 1, b, hb => by
    rw [powx, quot_powx hW hpW m (xtimes_lt hpW hb), quot_xtimes hW hb, map_mul,
      pow_succ]
    ring

/-- The central algebraic fact: for a non-zero generator word `p`, no power
of `x` vanishes modulo `p(x)` — `x^m mod p(x)` is never the zero word. -/
theorem powx_identity_ne_zero {W p : Nat} (hW : 1 ≤ W) (hp : p ≠ 0) (hpW : p < 2 ^ W)
    (m : Nat) : powx p m (2 ^ (W - 1)) ≠ 0 := by
  intro h0
  have hone : (2 : Nat) ^ (W - 1) < 2 ^ W := Nat.pow_lt_pow_right (by omega) (by omega)
  have hq := quot_powx (p := p) hW hpW m hone
  rw [h0, toPoly_zero_eq, toPoly_identity hW, map_zero, map_one, one_mul] at hq
  have hXm : Ideal.Quotient.mk (Ideal.span {genPoly W p}) (Polynomial.X ^ m) = 0 := by
    rw [map_pow]
    exact hq.symm
  have hdvd : genPoly W p ∣ Polynomial.X ^ m := by
    rw [← Ideal.mem_span_singleton]
    exact Ideal.Quotient.eq_zero_iff_mem.mp hXm
  obtain ⟨i, _, hassoc⟩ := (dvd_prime_pow Polynomial.prime_X m).mp hdvd
  have heq : genPoly W p = Polynomial.X ^ i :=
    Polynomial.eq_of_monic_of_associated (genPoly_monic W p) (Polynomial.monic_X_pow i)
      hassoc
  have hdeg : (W : WithBot ℕ) = i := by
    rw [← genPoly_degree W p, heq, Polynomial.degree_X_pow]
  have hWi : W = i := by exact_mod_cast hdeg
  subst hWi
  have htp : toPoly W p = 0 := by
    unfold genPoly at heq
    exact add_right_eq_self.mp heq
  exact hp (toPoly_eq_zero hpW htp)

end GFTwo

/-!
## Correctness of the power table for non-zero polynomials
-/

theorem multModP_powx_pair {W p : Nat} (hW : 1 ≤ W) (hp : p ≠ 0) (hpW : p < 2 ^ W)
    (m m' : Nat) :
    multModP W p (powx p m (2 ^ (W - 1))) (powx p m' (2 ^ (W - 1)))
      = some (powx p (m' + m) (2 ^ (W - 1))) := by
  have hone : (2 : Nat) ^ (W - 1) < 2 ^ W := Nat.pow_lt_pow_right (by omega) (by omega)
  rw [multModP_powx m' (powx_identity_ne_zero hW hp hpW m) (powx_lt hpW hone m) hW,
    ← powx_add]

theorem x2nTblAux_spec {W p : Nat} (hW : 1 ≤ W) (hp : p ≠ 0) (hpW : p < 2 ^ W) :
    ∀ (c e : Nat), x2nTblAux W p c (powx p e (2 ^ (W - 1)))
      = some ((List.range c).map fun i => powx p (2 ^ (i + 1) * e) (2 ^ (W - 1)))
  | 0, e => by simp [x2nTblAux]
  | c + 1, e => by
    rw [x2nTblAux, multModP_powx_pair hW hp hpW e e]
    have he : e + e = 2 * e := by ring
    rw [he]
    show (x2nTblAux W p c (powx p (2 * e) (2 ^ (W - 1)))).map
        (fun rest => powx p (2 * e) (2 ^ (W - 1)) :: rest) = _
    rw [x2nTblAux_spec hW hp hpW c (2 * e), List.range_succ_eq_map]
    simp only [List.map_cons, List.map_map, Option.map_some']
    have hhead : powx p (2 ^ (0 + 1) * e) (2 ^ (W - 1))
        = powx p (2 * e) (2 ^ (W - 1)) := by
      congr 1
    have htail : (List.range c).map
          ((fun i => powx p (2 ^ (i + 1) * e) (2 ^ (W - 1))) ∘ Nat.succ)
        = (List.range c).map
          (fun i => powx p (2 ^ (i + 1) * (2 * e)) (2 ^ (W - 1))) := by
      apply List.map_congr_left
      intro i _
      simp only [Function.comp_apply, Nat.succ_eq_add_one]
      congr 1
      ring
    rw [hhead, htail]

theorem x2nTbl_spec {W p : Nat} (hW : 2 ≤ W) (hp : p ≠ 0) (hpW : p < 2 ^ W) :
    x2nTbl W p = some (tblSpec W p) := by
  unfold x2nTbl
  have hseed : (1 : Nat) <<< (W - 2) = powx p 1 (2 ^ (W - 1)) := by
    rw [Nat.one_shiftLeft, powx, powx]
    have e : W - 1 = W - 2 + 1 := by omega
    rw [e, xtimes_two_pow]
  rw [hseed, x2nTblAux_spec (by omega) hp hpW (W - 1) 1]
  unfold tblSpec
  obtain ⟨W', rfl⟩ : ∃ W', W = W' + 1 := ⟨W - 1, by omega⟩
  rw [List.range_succ_eq_map]
  simp only [List.map_cons, List.map_map, Option.map_some', Nat.add_sub_cancel]
  have hhead : powx p (2 ^ 0) (2 ^ W') = powx p 1 (2 ^ W') := by
    congr 1
  have htail : (List.range W').map ((fun i => powx p (2 ^ i) (2 ^ W')) ∘ Nat.succ)
      = (List.range W').map (fun i => powx p (2 ^ (i + 1) * 1) (2 ^ W')) := by
    apply List.map_congr_left
    intro i _
    simp only [Function.comp_apply, Nat.succ_eq_add_one]
    congr 1
    ring
  rw [hhead, htail]

theorem tblSpec_length (W p : Nat) : (tblSpec W p).length = W := by
  simp [tblSpec]

theorem tblSpec_getD {W p : Nat} (k : Nat) (hk : k < W) :
    (tblSpec W p).getD k 0 = powx p (2 ^ k) (2 ^ (W - 1)) := by
  unfold tblSpec
  rw [List.getD_eq_getElem?_getD, List.getElem?_map, List.getElem?_range hk]
  simp

/-- For every non-zero polynomial word, table construction succeeds and
produces exactly the powers `x^(2^i) mod p(x)`. -/
theorem makePoly_of_ne_zero {W p : Nat} (hW : 2 ≤ W) (hp : p ≠ 0) (hpW : p < 2 ^ W) :
    makePoly W p = some { poly := p, x2nTbl := tblSpec W p } := by
  unfold makePoly
  rw [x2nTbl_spec hW hp hpW]
  rfl

end Crc

/-!
## Claim theorems: the easy `Combine` branches and `multModP` totality
-/

/-- C4: for a non-zero `W`-bit `a` and a `W`-bit `b`, `multModP` returns a
value via the early exit; the fall-through panic after the loop is
unreachable. -/
theorem multModP_no_panic {W p a b : Nat} (ha : a ≠ 0) (haW : a < 2 ^ W)
    (_hb : b < 2 ^ W) : ∃ v, Crc.multModP W p a b = some v :=
  ⟨_, Crc.multModP_eq_mulT ha haW⟩

theorem multModP_no_panic_witness :
    (0xEDB88320 : Nat) ≠ 0 ∧ (0xEDB88320 : Nat) < 2 ^ 32 ∧ (5 : Nat) < 2 ^ 32 ∧
      ∃ v, Crc.multModP 32 0xEDB88320 0xEDB88320 5 = some v :=
  ⟨by decide, by decide, by decide,
    multModP_no_panic (by decide) (by decide) (by decide)⟩

/-- C7: a zero previous sum is the identity prefix: `Combine(0, y, n) = y`
for every polynomial, every `y` and every length `n` (positive, zero or
negative). -/
theorem combine_zero_prev (W : Nat) (P : Crc.Poly) (y : Nat) (n : Int) :
    Crc.Combine W P 0 y n = .ok y := by
  simp [Crc.Combine]

/-- C2 (amended): for a non-positive length the second block contributes
nothing — provided the previous sum is non-zero, since `Combine` checks
`prev == 0` first and returns `next` in that case. -/
theorem combine_nonpos_len {W : Nat} (P : Crc.Poly) {x : Nat} (y : Nat)
    {n : Int} (hx : x ≠ 0) (hn : n ≤ 0) : Crc.Combine W P x y n = .ok x := by
  simp [Crc.Combine, hx, hn]

theorem combine_nonpos_len_witness :
    (5 : Nat) ≠ 0 ∧ (0 : Int) ≤ 0 ∧ Crc.Combine 32 ⟨1, []⟩ 5 9 0 = .ok 5 :=
  ⟨by decide, by decide, combine_nonpos_len ⟨1, []⟩ 9 (by decide) (by decide)⟩

/-- C2 counterexample: on the IEEE polynomial, `Combine(0, 1, 0)` returns
`1` (the `prev == 0` branch wins), not the previous sum `0` claimed by the
"identity on empty suffix for any x, y" law. -/
theorem combine_nonpos_len_cex :
    crc32.IEEE.map (fun P => Crc.Combine 32 P 0 1 0) = some (.ok 1) ∧
      Crc.LoopRes.ok 1 ≠ Crc.LoopRes.ok 0 := by
  exact ⟨by decide, by decide⟩

/-!
## The `x2NModP` loop: step budget, recurrence, termination
-/

namespace Crc

/-- The result of `x2NAux` does not depend on the step budget, as long as
the budget bounds the bit length of the (non-negative) exponent. -/
theorem x2NAux_fuel (W p : Nat) (tbl : List Nat) :
    ∀ (F F' : Nat) (n : Int) (k v : Nat), 0 ≤ n → n < 2 ^ F → n < 2 ^ F' →
      x2NAux W p tbl F n k v = x2NAux W p tbl F' n k v
  | 0, F', n, k, v, h0, hF, _ => by
    have hn : n = 0 := by
      have h1 : (2 : Int) ^ 0 = 1 := pow_zero 2
      omega
    subst hn
    cases F' <;> simp [x2NAux]
  | F + 1, F', n, k, v, h0, hF, hF' => by
    by_cases hn : n = 0
    · subst hn
      cases F' <;> simp [x2NAux]
    · rcases F' with _ | F''
      · have h1 : (2 : Int) ^ 0 = 1 := pow_zero 2
        omega
      · rw [x2NAux, x2NAux, if_neg hn, if_neg hn]
        cases hm : (if n % 2 ≠ 0 then multModP W p (tbl.getD (k &&& (W - 1)) 0) v else some v) with
        | none => rfl
        | some v' =>
          have e1 : (2 : Int) ^ (F + 1) = 2 * 2 ^ F := by ring
          have e2 : (2 : Int) ^ (F'' + 1) = 2 * 2 ^ F'' := by ring
          exact x2NAux_fuel W p tbl F F'' (n / 2) (k + 1) v'
            (by omega) (by omega) (by omega)

/-- For a negative exponent the loop never terminates normally: the
arithmetic right shift keeps the exponent negative. -/
theorem x2NAux_neg_no_ok (W p : Nat) (tbl : List Nat) :
    ∀ (F : Nat) (n : Int) (k v w : Nat), n < 0 → x2NAux W p tbl F n k v ≠ .ok w
  | 0, n, k, v, w, hneg => by
    rw [x2NAux, if_neg (by omega)]
    simp
  | F + 1, n, k, v, w, hneg => by
    rw [x2NAux, if_neg (by omega)]
    cases hm : (if n % 2 ≠ 0 then multModP W p (tbl.getD (k &&& (W - 1)) 0) v else some v) with
    | none => simp
    | some v' => exact x2NAux_neg_no_ok W p tbl F (n / 2) (k + 1) v' w (by omega)

/-- For a non-negative exponent below `2 ^ F` the loop finishes within `F`
rounds (it either returns a value or panics, never exhausts the budget). -/
theorem x2NAux_no_spin (W p : Nat) (tbl : List Nat) :
    ∀ (F : Nat) (n : Int) (k v : Nat), 0 ≤ n → n < 2 ^ F →
      x2NAux W p tbl F n k v ≠ .spin
  | 0, n, k, v, h0, hF => by
    have h1 : (2 : Int) ^ 0 = 1 := pow_zero 2
    have hn : n = 0 := by omega
    subst hn
    simp [x2NAux]
  | F + 1, n, k, v, h0, hF => by
    by_cases hn : n = 0
    · subst hn
      simp [x2NAux]
    · rw [x2NAux, if_neg hn]
      cases hm : (if n % 2 ≠ 0 then multModP W p (tbl.getD (k &&& (W - 1)) 0) v else some v) with
      | none => simp
      | some v' =>
        have e1 : (2 : Int) ^ (F + 1) = 2 * 2 ^ F := by ring
        exact x2NAux_no_spin W p tbl F (n / 2) (k + 1) v' (by omega) (by omega)

end Crc

/-- C5: `x2NModP` starts from the identity word `1 <<< (W-1)`; when the
exponent is `0` the loop body never runs and the identity is returned for
every index `k`; and for a positive (`int64`) exponent one round folds in
`powerTable[k &&& (W-1)]` through `multModP` exactly when the lowest bit of
`n` is set, then continues with `n >> 1` and `k + 1`. -/
theorem x2NModP_spec :
    (∀ (W : Nat) (P : Crc.Poly) (k : Nat), Crc.x2NModP W P 0 k = .ok (1 <<< (W - 1))) ∧
      (∀ (W : Nat) (P : Crc.Poly) (n : Int) (k v : Nat), 0 < n → n < 2 ^ 63 →
        Crc.x2NAux W P.poly P.x2nTbl 64 n k v =
          match (if n % 2 ≠ 0
                 then Crc.multModP W P.poly (P.x2nTbl.getD (k &&& (W - 1)) 0) v
                 else some v) with
          | none => .panicked
          | some v' => Crc.x2NAux W P.poly P.x2nTbl 64 (n / 2) (k + 1) v') := by
  constructor
  · intro W P k
    simp [Crc.x2NModP, Crc.x2NAux]
  · intro W P n k v h0 h63
    rw [Crc.x2NAux, if_neg (by omega)]
    cases hm : (if n % 2 ≠ 0 then Crc.multModP W P.poly (P.x2nTbl.getD (k &&& (W - 1)) 0) v
        else some v) with
    | none => rfl
    | some v' =>
      have e1 : (2 : Int) ^ 64 = 2 * 2 ^ 63 := by ring
      exact Crc.x2NAux_fuel W P.poly P.x2nTbl 63 64 (n / 2) (k + 1) v'
        (by omega) (by omega) (by omega)

theorem x2NModP_spec_witness :
    Crc.x2NModP 32 ⟨1, [5]⟩ 0 7 = .ok (1 <<< 31) ∧
      Crc.x2NAux 32 1 [5] 64 2 3 9 =
        match (if (2 : Int) % 2 ≠ 0 then Crc.multModP 32 1 (([5] : List Nat).getD (3 &&& 31) 0) 9
               else some 9) with
        | none => .panicked
        | some v' => Crc.x2NAux 32 1 [5] 64 ((2 : Int) / 2) 4 v' :=
  ⟨x2NModP_spec.1 32 ⟨1, [5]⟩ 7,
    x2NModP_spec.2 32 ⟨1, [5]⟩ 2 3 9 (by decide) (by decide)⟩

/-- C9: the `x2NModP` loop terminates for non-negative exponents (64 rounds
cover every non-negative `int64`, since the shift halves the exponent), it
would never return normally for a negative exponent (the arithmetic shift
keeps it negative), and `Combine` returns before invoking `x2NModP`
whenever `n ≤ 0`. -/
theorem x2N_termination :
    (∀ (W p : Nat) (tbl : List Nat) (F : Nat) (n : Int) (k v w : Nat), n < 0 →
        Crc.x2NAux W p tbl F n k v ≠ .ok w) ∧
      (∀ (W p : Nat) (tbl : List Nat) (n : Int) (k v : Nat), 0 ≤ n → n < 2 ^ 63 →
        Crc.x2NAux W p tbl 64 n k v ≠ .spin) ∧
      (∀ (W : Nat) (P : Crc.Poly) (prev next : Nat) (n : Int), n ≤ 0 →
        Crc.Combine W P prev next n = .ok (if prev = 0 then next else prev)) := by
  refine ⟨fun W p tbl F n k v w h => Crc.x2NAux_neg_no_ok W p tbl F n k v w h,
    fun W p tbl n k v h0 h63 => ?_, fun W P prev next n hn => ?_⟩
  · have e1 : (2 : Int) ^ 64 = 2 * 2 ^ 63 := by ring
    exact Crc.x2NAux_no_spin W p tbl 64 n k v h0 (by omega)
  · by_cases hp : prev = 0 <;> simp [Crc.Combine, hp, hn]

/-- Every branch of `crc32.MakePoly` builds `makePoly 32` of its argument:
the cached accessors are themselves `makePoly` of the matched constant. -/
theorem crc32_MakePoly_eq (v : Nat) : crc32.MakePoly v = Crc.makePoly 32 v := by
  unfold crc32.MakePoly crc32.IEEE crc32.Castagnoli crc32.Koopman
  split_ifs with h1 h2 h3
  · rw [h1]
  · rw [h2]
  · rw [h3]
  · rfl

/-- Every branch of `crc64.MakePoly` builds `makePoly 64` of its argument. -/
theorem crc64_MakePoly_eq (v : Nat) : crc64.MakePoly v = Crc.makePoly 64 v := by
  unfold crc64.MakePoly crc64.ISO crc64.ECMA
  split_ifs with h1 h2
  · rw [h1]
  · rw [h2]
  · rfl

/-- C8 (amended): each well-known constant maps to the dedicated accessor
(the same behaviour-equivalent instance), and for every other *non-zero*
polynomial value `MakePoly` returns a fresh `Poly` carrying that value;
`MakePoly(0)` is excluded because its table construction panics. -/
theorem makePoly_cache_spec :
    (crc32.MakePoly crc32.IEEEConst = crc32.IEEE ∧
      crc32.MakePoly crc32.CastagnoliConst = crc32.Castagnoli ∧
      crc32.MakePoly crc32.KoopmanConst = crc32.Koopman ∧
      crc64.MakePoly crc64.ISOConst = crc64.ISO ∧
      crc64.MakePoly crc64.ECMAConst = crc64.ECMA) ∧
      (∀ v, v ≠ 0 → v < 2 ^ 32 → ∃ P, crc32.MakePoly v = some P ∧ P.poly = v) ∧
      (∀ v, v ≠ 0 → v < 2 ^ 64 → ∃ P, crc64.MakePoly v = some P ∧ P.poly = v) := by
  refine ⟨⟨by rfl, by decide, by decide, by rfl, by decide⟩, ?_, ?_⟩
  · intro v hv hlt
    refine ⟨⟨v, Crc.tblSpec 32 v⟩, ?_, rfl⟩
    rw [crc32_MakePoly_eq, Crc.makePoly_of_ne_zero (by omega) hv hlt]
  · intro v hv hlt
    refine ⟨⟨v, Crc.tblSpec 64 v⟩, ?_, rfl⟩
    rw [crc64_MakePoly_eq, Crc.makePoly_of_ne_zero (by omega) hv hlt]

theorem makePoly_cache_spec_witness :
    ∃ P, crc32.MakePoly 3 = some P ∧ P.poly = 3 :=
  makePoly_cache_spec.2.1 3 (by decide) (by decide)

/-- C8 counterexample: `MakePoly(0)` does not return a `Poly` at all — the
table construction panics (at both widths), because squaring eventually
reaches the zero word and `multModP` is called with a zero first argument. -/
theorem makePoly_cache_cex : crc32.MakePoly 0 = none ∧ crc64.MakePoly 0 = none :=
  ⟨by decide, by decide⟩

namespace Crc

/-- Invariant of the table-building loop: the produced list has one entry
per round and each entry is the `multModP`-square of its predecessor
(starting from the incoming value `v`). -/
theorem x2nTblAux_chain (W p : Nat) :
    ∀ (c : Nat) (v : Nat) (l : List Nat), x2nTblAux W p c v = some l →
      l.length = c ∧
        ∀ i < c, multModP W p ((v :: l).getD i 0) ((v :: l).getD i 0) = some (l.getD i 0)
  | 0, v, l, h => by
    simp [x2nTblAux] at h
    subst h
    exact ⟨rfl, fun i hi => absurd hi (by omega)⟩
  | c + 1, v, l, h => by
    rw [x2nTblAux] at h
    cases hm : multModP W p v v with
    | none => rw [hm] at h; exact absurd h (by simp)
    | some v' =>
      rw [hm] at h
      have h' : (x2nTblAux W p c v').map (fun rest => v' :: rest) = some l := h
      cases ha : x2nTblAux W p c v' with
      | none => rw [ha] at h'; exact absurd h' (by simp)
      | some l' =>
        rw [ha] at h'
        simp at h'
        subst h'
        obtain ⟨hlen, hchain⟩ := x2nTblAux_chain W p c v' l' ha
        refine ⟨by simp [hlen], ?_⟩
        intro i hi
        cases i with
        | zero => simpa using hm
        | succ j => simpa using hchain j (by omega)

/-- Unpacking a successful `makePoly`: the polynomial field is `p`, the
table starts with the seed `1 <<< (W-2)`, has `W - 1` further entries, and
each of those is the `multModP`-square of its predecessor. -/
theorem makePoly_inv {W p : Nat} {P : Poly} (h : makePoly W p = some P) :
    P.poly = p ∧ ∃ rest, P.x2nTbl = (1 <<< (W - 2)) :: rest ∧ rest.length = W - 1 ∧
      ∀ i < W - 1,
        multModP W p (((1 <<< (W - 2)) :: rest).getD i 0)
            (((1 <<< (W - 2)) :: rest).getD i 0)
          = some (rest.getD i 0) := by
  unfold makePoly x2nTbl at h
  cases ha : x2nTblAux W p (W - 1) (1 <<< (W - 2)) with
  | none => rw [ha] at h; exact absurd h (by simp)
  | some rest =>
    rw [ha] at h
    simp only [Option.map_map, Option.map_some] at h
    obtain ⟨hlen, hchain⟩ := x2nTblAux_chain W p (W - 1) _ rest ha
    injection h with h
    subst h
    exact ⟨rfl, rest, rfl, hlen, hchain⟩

end Crc

/-- C6: a successfully constructed power table has exactly `W` entries and
every entry past the first is the `multModP`-square of the previous one. -/
theorem makePoly_table_chain {W p : Nat} {P : Crc.Poly} (hW : 1 ≤ W)
    (h : Crc.makePoly W p = some P) :
    P.x2nTbl.length = W ∧
      ∀ i, 1 ≤ i → i < W →
        Crc.multModP W p (P.x2nTbl.getD (i - 1) 0) (P.x2nTbl.getD (i - 1) 0)
          = some (P.x2nTbl.getD i 0) := by
  obtain ⟨hp, rest, htbl, hlen, hchain⟩ := Crc.makePoly_inv h
  refine ⟨by rw [htbl]; simp [hlen]; omega, ?_⟩
  intro i h1 hiW
  obtain ⟨j, rfl⟩ : ∃ j, i = j + 1 := ⟨i - 1, by omega⟩
  rw [htbl]
  simpa using hchain j (by omega)

theorem makePoly_table_chain_witness :
    ((Crc.makePoly 32 crc32.IEEEConst).getD ⟨0, []⟩).x2nTbl.length = 32 ∧
      Crc.multModP 32 crc32.IEEEConst
          (((Crc.makePoly 32 crc32.IEEEConst).getD ⟨0, []⟩).x2nTbl.getD 4 0)
          (((Crc.makePoly 32 crc32.IEEEConst).getD ⟨0, []⟩).x2nTbl.getD 4 0)
        = some (((Crc.makePoly 32 crc32.IEEEConst).getD ⟨0, []⟩).x2nTbl.getD 5 0) := by
  have h : Crc.makePoly 32 crc32.IEEEConst
      = some ((Crc.makePoly 32 crc32.IEEEConst).getD ⟨0, []⟩) := by decide
  have hc := makePoly_table_chain (by omega) h
  exact ⟨hc.1, hc.2 5 (by omega) (by omega)⟩

/-- C3 (amended): entry 0 of the power table is the seed `1 <<< (W-2)`
itself (representing `x^1`); the modular squaring starts at entry 1, which
equals `multModP(seed, seed)`. -/
theorem table_entry_zero {W p : Nat} {P : Crc.Poly} (h : Crc.makePoly W p = some P) :
    P.x2nTbl.getD 0 0 = 1 <<< (W - 2) ∧
      (2 ≤ W →
        Crc.multModP W p (1 <<< (W - 2)) (1 <<< (W - 2)) = some (P.x2nTbl.getD 1 0)) := by
  obtain ⟨hp, rest, htbl, hlen, hchain⟩ := Crc.makePoly_inv h
  refine ⟨by rw [htbl]; rfl, fun hW => ?_⟩
  have h0 := hchain 0 (by omega)
  rw [htbl]
  simpa using h0

theorem table_entry_zero_witness :
    ((Crc.makePoly 32 crc32.IEEEConst).getD ⟨0, []⟩).x2nTbl.getD 0 0 = 1 <<< 30 ∧
      Crc.multModP 32 crc32.IEEEConst (1 <<< 30) (1 <<< 30)
        = some (((Crc.makePoly 32 crc32.IEEEConst).getD ⟨0, []⟩).x2nTbl.getD 1 0) := by
  have h : Crc.makePoly 32 crc32.IEEEConst
      = some ((Crc.makePoly 32 crc32.IEEEConst).getD ⟨0, []⟩) := by decide
  have hc := table_entry_zero h
  exact ⟨hc.1, hc.2 (by omega)⟩

/-- C3 counterexample: for the IEEE polynomial the constructed table has
`powerTable[0] = 0x40000000` (the seed itself, `x^1`), whereas
`multModP(seed, seed) = 0x20000000` (`x^2`); the two differ. -/
theorem table_entry_zero_cex :
    (Crc.makePoly 32 crc32.IEEEConst).map (fun P => P.x2nTbl.getD 0 0)
        = some 0x40000000 ∧
      Crc.multModP 32 crc32.IEEEConst 0x40000000 0x40000000 = some 0x20000000 ∧
      (0x40000000 : Nat) ≠ 0x20000000 :=
  ⟨by decide, by decide, by decide⟩

theorem x2N_termination_witness :
    Crc.x2NAux 32 0 [] 5 (-3) 0 1 ≠ .ok 7 ∧
      Crc.x2NAux 32 0 [] 64 3 0 1 ≠ .spin ∧
      Crc.Combine 32 ⟨0, []⟩ 4 9 (-2) = .ok (if (4 : Nat) = 0 then 9 else 4) :=
  ⟨x2N_termination.1 32 0 [] 5 (-3) 0 1 7 (by decide),
    x2N_termination.2.1 32 0 [] 3 0 1 (by decide) (by decide),
    x2N_termination.2.2 32 ⟨0, []⟩ 4 9 (-2) (by decide)⟩

/-!
## The combine law and its failure for reducible polynomials

`x2NModP` reduces the table index modulo `W` (`k &&& (W-1)`), silently
identifying `x^(2^(k+W))` with `x^(2^k)`.  That identification is valid for
the standard (irreducible) generators by the Frobenius `x^(2^W) = x`
of GF(2^W), but it is false for reducible generators, so `Combine` returns
a wrong checksum once the second block is at least `2^(W-3)` bytes long.
The concrete failing input below uses the 32-bit generator word `1`
(`p(x) = x^32 + x^31`) and a second block of `2^29` zero bytes.
-/

namespace Crc

theorem updateRaw_replicate_zero (p s : Nat) :
    ∀ n, updateRaw p s (List.replicate n 0) = powx p (8 * n) s
  | 0 => rfl
  | n + 1 => by
    rw [List.replicate_succ]
    show updateRaw p (powx p 8 (s ^^^ 0)) (List.replicate n 0) = _
    rw [Nat.xor_zero, updateRaw_replicate_zero p (powx p 8 s) n]
    rw [show 8 * (n + 1) = 8 * n + 8 by ring, powx_add]

/-- With the degenerate generator word `1`, thirty-one shift steps send the
all-ones word to zero, and zero is absorbing; so `x^m` applied to the
all-ones word vanishes for every `m ≥ 31`. -/
theorem powx_one_allones {m : Nat} (hm : 31 ≤ m) :
    powx 1 m 0xFFFFFFFF = 0 := by
  have hsplit : m = (m - 31) + 31 := by omega
  rw [hsplit, powx_add, show powx 1 31 0xFFFFFFFF = 0 by decide, powx_zero_val]

/-- Checksum (generator word `1`) of a long block of zero bytes saturates
to all ones. -/
theorem checksum_zeros_p1 {n : Nat} (hn : 31 ≤ 8 * n) :
    Checksum 32 1 (List.replicate n 0) = 0xFFFFFFFF := by
  have hM : ((1 : Nat) <<< 32) - 1 = 0xFFFFFFFF := by decide
  unfold Checksum Update
  rw [hM, Nat.xor_zero, updateRaw_replicate_zero, powx_one_allones hn, Nat.xor_zero]

/-- The same with one zero byte in front. -/
theorem checksum_cons_zeros_p1 {n : Nat} (hn : 31 ≤ 8 * n) :
    Checksum 32 1 (0 :: List.replicate n 0) = 0xFFFFFFFF := by
  have hM : ((1 : Nat) <<< 32) - 1 = 0xFFFFFFFF := by decide
  unfold Checksum Update
  rw [hM, Nat.xor_zero]
  show (0xFFFFFFFF : Nat) ^^^
      updateRaw 1 (powx 1 8 (0xFFFFFFFF ^^^ 0)) (List.replicate n 0) = _
  rw [Nat.xor_zero, updateRaw_replicate_zero, ← powx_add,
    powx_one_allones (by omega), Nat.xor_zero]

end Crc

/-- C1 (code bug): on the 32-bit polynomial word `1` with `A = [0x00]` and
`B` consisting of `2^29` zero bytes, the code returns
`Combine(Checksum(A), Checksum(B), 2^29) = 0x807FFFFF`, but the checksum of
the concatenated input `A ++ B` is `0xFFFFFFFF`: the combine law fails. -/
theorem combine_C1_bug :
    (Crc.makePoly 32 1).map
        (fun P => Crc.Combine 32 P (Crc.Checksum 32 1 [0])
          (Crc.Checksum 32 1 (List.replicate (2 ^ 29) 0)) (2 ^ 29))
      = some (.ok 0x807FFFFF) ∧
      Crc.Checksum 32 1 (0 :: List.replicate (2 ^ 29) 0) = 0xFFFFFFFF ∧
      (0x807FFFFF : Nat) ≠ 0xFFFFFFFF := by
  have hB := Crc.checksum_zeros_p1 (n := 2 ^ 29) (by norm_num)
  refine ⟨?_, Crc.checksum_cons_zeros_p1 (by norm_num), by decide⟩
  rw [hB]
  decide

/-!
## The bounded combine law

With a correct power table and a second block short enough that no table
index wraps, `Combine` is exact: this is the positive counterpart of
`combine_C1_bug`, valid for every non-zero generator word.
-/

namespace Crc

theorem xor_shuffle (a u q : Nat) : a ^^^ (u ^^^ q) = q ^^^ (a ^^^ u) := by
  rw [Nat.xor_comm u q, xor_left_comm]

theorem updateRaw_append (p s : Nat) (A B : List Nat) :
    updateRaw p s (A ++ B) = updateRaw p (updateRaw p s A) B := by
  unfold updateRaw
  rw [List.foldl_append]

theorem Checksum_append (W p : Nat) (A B : List Nat) :
    Checksum W p (A ++ B) = Update W p (Checksum W p A) B := by
  unfold Checksum Update
  rw [updateRaw_append, xor_cancel_left]

theorem updateRaw_affine (p : Nat) :
    ∀ (d : List Nat) (s u : Nat),
      updateRaw p (s ^^^ u) d = updateRaw p s d ^^^ powx p (8 * d.length) u
  | [], _, _ => rfl
  | c :: d, s, u => by
    have e : 8 * (c :: d).length = 8 * d.length + 8 := by
      rw [List.length_cons]
      ring
    rw [e]
    show updateRaw p (powx p 8 (s ^^^ u ^^^ c)) d
      = updateRaw p (powx p 8 (s ^^^ c)) d ^^^ powx p (8 * d.length + 8) u
    have h1 : s ^^^ u ^^^ c = (s ^^^ c) ^^^ u := by
      rw [Nat.xor_assoc, Nat.xor_comm u c, ← Nat.xor_assoc]
    rw [h1, powx_xor, updateRaw_affine p d (powx p 8 (s ^^^ c)) (powx p 8 u),
      ← powx_add]

theorem Update_decomp (W p prev : Nat) (B : List Nat) :
    Update W p prev B = powx p (8 * B.length) prev ^^^ Checksum W p B := by
  unfold Checksum Update
  rw [Nat.xor_zero, updateRaw_affine, xor_shuffle]

theorem mask_lt (W : Nat) : (1 <<< W) - 1 < 2 ^ W := by
  rw [Nat.one_shiftLeft]
  have := Nat.two_pow_pos W
  omega

theorem updateRaw_lt {W p : Nat} (hp : p < 2 ^ W) :
    ∀ (d : List Nat) (s : Nat), s < 2 ^ W → (∀ c ∈ d, c < 2 ^ W) →
      updateRaw p s d < 2 ^ W
  | [], _, hs, _ => hs
  | c :: d, s, hs, hd => by
    show updateRaw p (powx p 8 (s ^^^ c)) d < 2 ^ W
    exact updateRaw_lt hp d _
      (powx_lt hp (Nat.xor_lt_two_pow hs (hd c (by simp))) 8)
      (fun c' hc' => hd c' (by simp [hc']))

theorem Checksum_lt {W p : Nat} (hp : p < 2 ^ W) (d : List Nat)
    (hd : ∀ c ∈ d, c < 2 ^ W) : Checksum W p d < 2 ^ W := by
  unfold Checksum Update
  refine Nat.xor_lt_two_pow (mask_lt W) (updateRaw_lt hp d _ ?_ hd)
  rw [Nat.xor_zero]
  exact mask_lt W

/-- On a correct table, the `x2NModP` loop multiplies the running value by
`x^(n·2^k)`, provided no table index wraps (`n < 2^(W-k)`). -/
theorem x2NAux_tblSpec {W t p : Nat} (hWt : W = 2 ^ t) (hW : 1 ≤ W)
    (hp : p ≠ 0) (hpW : p < 2 ^ W) :
    ∀ (F : Nat) (n : Int) (k e : Nat), 0 ≤ n → n.toNat < 2 ^ F →
      n.toNat < 2 ^ (W - k) →
      x2NAux W p (tblSpec W p) F n k (powx p e (2 ^ (W - 1)))
        = .ok (powx p (e + n.toNat * 2 ^ k) (2 ^ (W - 1)))
  | 0, n, k, e, h0, hF, hWk => by
    have h1 : (2 : Nat) ^ 0 = 1 := rfl
    have hn : n = 0 := by omega
    subst hn
    rw [x2NAux, if_pos rfl]
    norm_num
  | F + 1, n, k, e, h0, hF, hWk => by
    by_cases hn : n = 0
    · subst hn
      rw [x2NAux, if_pos rfl]
      norm_num
    · have hpos : 1 ≤ n.toNat := by omega
      have hWk1 : 1 ≤ W - k := by
        by_contra hc
        push_neg at hc
        have h0wk : W - k = 0 := by omega
        rw [h0wk] at hWk
        simp at hWk
        omega
      have hkW : k < W := by omega
      rw [x2NAux, if_neg hn]
      have hidx : k &&& (W - 1) = k := by
        rw [hWt]
        rw [hWt] at hkW
        rw [Nat.and_pow_two_sub_one_eq_mod, Nat.mod_eq_of_lt hkW]
      rw [hidx, tblSpec_getD k hkW]
      have hdiv : (n / 2).toNat = n.toNat / 2 := by omega
      have hF2 : (n / 2).toNat < 2 ^ F := by
        have h2F : (2 : Nat) ^ (F + 1) = 2 * 2 ^ F := by ring
        omega
      have hWk2 : (n / 2).toNat < 2 ^ (W - (k + 1)) := by
        have hsub : W - k = (W - (k + 1)) + 1 := by omega
        rw [hsub] at hWk
        have h2F : (2 : Nat) ^ ((W - (k + 1)) + 1) = 2 * 2 ^ (W - (k + 1)) := by ring
        omega
      by_cases hodd : n % 2 = 0
      · rw [if_neg (by simp [hodd])]
        show x2NAux W p (tblSpec W p) F (n / 2) (k + 1) (powx p e (2 ^ (W - 1))) = _
        rw [x2NAux_tblSpec hWt hW hp hpW F (n / 2) (k + 1) e (by omega) hF2 hWk2]
        obtain ⟨q, hq⟩ : ∃ q, n.toNat = 2 * q := ⟨n.toNat / 2, by omega⟩
        have h2 : (n / 2).toNat = q := by omega
        rw [h2, hq]
        have hexp : e + q * 2 ^ (k + 1) = e + 2 * q * 2 ^ k := by ring
        rw [hexp]
      · rw [if_pos hodd, multModP_powx_pair hW hp hpW (2 ^ k) e]
        show x2NAux W p (tblSpec W p) F (n / 2) (k + 1)
            (powx p (e + 2 ^ k) (2 ^ (W - 1))) = _
        rw [x2NAux_tblSpec hWt hW hp hpW F (n / 2) (k + 1) (e + 2 ^ k) (by omega)
          hF2 hWk2]
        obtain ⟨q, hq⟩ : ∃ q, n.toNat = 2 * q + 1 := ⟨n.toNat / 2, by omega⟩
        have h2 : (n / 2).toNat = q := by omega
        rw [h2, hq]
        have hexp : e + 2 ^ k + q * 2 ^ (k + 1) = e + (2 * q + 1) * 2 ^ k := by ring
        rw [hexp]

/-- The bounded combine law: for every non-zero generator word and every
second block shorter than `2^(W-3)` bytes (so that no power-table index
wraps), `Combine(Checksum(A), Checksum(B), len(B)) = Checksum(A ++ B)`. -/
theorem combine_correct {W t p : Nat} (hWt : W = 2 ^ t) (h8 : 8 ≤ W)
    (hW64 : W ≤ 64) (hp : p ≠ 0) (hpW : p < 2 ^ W) (A B : List Nat)
    (hA : ∀ c ∈ A, c < 256) (hB : ∀ c ∈ B, c < 256)
    (hlen : B.length < 2 ^ (W - 3)) :
    Combine W ⟨p, tblSpec W p⟩ (Checksum W p A) (Checksum W p B) B.length
      = .ok (Checksum W p (A ++ B)) := by
  have h256 : (256 : Nat) ≤ 2 ^ W := by
    calc (256 : Nat) = 2 ^ 8 := by norm_num
      _ ≤ 2 ^ W := Nat.pow_le_pow_right (by norm_num) h8
  have hAW : ∀ c ∈ A, c < 2 ^ W := fun c hc => lt_of_lt_of_le (hA c hc) h256
  have hBW : ∀ c ∈ B, c < 2 ^ W := fun c hc => lt_of_lt_of_le (hB c hc) h256
  by_cases hprev : Checksum W p A = 0
  · rw [Combine, if_pos hprev, Checksum_append, hprev]
    rfl
  · by_cases hBnil : B = []
    · subst hBnil
      rw [Combine, if_neg hprev, if_pos (by norm_num), List.append_nil]
    · have hpos : 0 < B.length := List.length_pos.mpr hBnil
      have hposI : (0 : Int) < B.length := by exact_mod_cast hpos
      rw [Combine, if_neg hprev, if_neg (by omega)]
      have hone : (1 : Nat) <<< (W - 1) = powx p 0 (2 ^ (W - 1)) := by
        rw [Nat.one_shiftLeft]
        rfl
      show (match x2NAux W p (tblSpec W p) 64 B.length 3 ((1 : Nat) <<< (W - 1)) with
        | .ok w =>
          match multModP W p (Checksum W p A) w with
          | some r => LoopRes.ok (r ^^^ Checksum W p B)
          | none => LoopRes.panicked
        | r => r) = .ok (Checksum W p (A ++ B))
      have htoNat : ((B.length : Int)).toNat = B.length := Int.toNat_natCast _
      rw [hone, x2NAux_tblSpec hWt (by omega) hp hpW 64 B.length 3 0 (by omega)
        (by rw [htoNat]
            calc B.length < 2 ^ (W - 3) := hlen
              _ ≤ 2 ^ 64 := Nat.pow_le_pow_right (by norm_num) (by omega))
        (by rw [htoNat]; exact hlen)]
      have hexp : 0 + ((B.length : Int)).toNat * 2 ^ 3 = 8 * B.length := by
        rw [htoNat]
        ring
      rw [hexp]
      have hprevlt : Checksum W p A < 2 ^ W := Checksum_lt hpW A hAW
      show (match multModP W p (Checksum W p A) (powx p (8 * B.length) (2 ^ (W - 1))) with
        | some r => LoopRes.ok (r ^^^ Checksum W p B)
        | none => LoopRes.panicked) = .ok (Checksum W p (A ++ B))
      rw [multModP_powx (8 * B.length) hprev hprevlt (by omega)]
      show LoopRes.ok (powx p (8 * B.length) (Checksum W p A) ^^^ Checksum W p B)
        = .ok (Checksum W p (A ++ B))
      rw [Checksum_append, Update_decomp]

end Crc
